import Mathlib

/-!
Verification of the claims about the save-file processor in
`roguelike.py` (class `RogueLike`, methods `process_save_file` and
`_try_add_skill`).

Modelling conventions:
* The save buffer (a Python `bytearray`) is a pair of a length and a
  byte-valued function.  Python slicing `b[lo:hi]` truncates at the end
  of the buffer and never raises; index assignment `b[i] = v` raises
  `IndexError` when `i` is out of range, which the processor catches at
  the top level and turns into a failed run.  We model the slice as a
  truncating list extraction and the assignment as an `Option`.
* Python `float` arithmetic on the attribute values is modelled over the
  exact rationals; Python `int` values are modelled as `Int`.
* `random.randint(a, b)` and `random.choice` are modelled by an oracle
  stream `rng : Nat -> Nat` together with a running index; each draw
  consumes one oracle value and maps it into the requested range by a
  modulus, so a draw of `randint a b` always lies in `[a, b]` and the
  model is uniform whenever the oracle is.
-/

set_option allowUnsafeReducibility true
attribute [semireducible] Rat.mul Rat.add Rat.sub Rat.neg Rat.inv Rat.div Rat.blt

/-- One entry of the skill catalog, as produced by the configuration
loader: the numeric id and the cost value.  The loader always sets the
bit position equal to the id (`'bit': skill_id`), so the bit field is
identified with `id` here; the name and description fields never enter
any computation of the processor other than log output. -/
structure Skill where
  id : Nat
  value : Int
deriving DecidableEq, Repr

/-- The three skill catalogs loaded from the configuration file. -/
structure Catalog where
  marshal_skills : List Skill
  commander_skills : List Skill
  personal_skills : List Skill

/-- Numeric tunables of the processor, as fields of class `RogueLike`. -/
structure Config where
  pick_limit : Nat
  reroll_limit : Nat
  extra_attribute : Int
  str_rate : Rat
  int_rate : Rat
  random_extra_attribute_min : Int
  random_extra_attribute_max : Int
  str_random_rate : Rat
  int_random_rate : Rat
  attribute_thresholds : List Rat
  attribute_rates : List Rat
  exist_attribute_rate : Rat
  last_character_number : Nat

/-- The save buffer: a byte length together with the byte at each
index.  Models the Python `bytearray` holding the save file. -/
structure Buf where
  len : Nat
  data : Nat → Nat

/-- Python slice `b[lo:hi]` for `0 ≤ lo`: the bytes at indices
`lo, lo+1, ...` up to (excluding) `min hi len`; truncating, never
failing. -/
def Buf.slice (b : Buf) (lo hi : Nat) : List Nat :=
  (List.range' lo (min hi b.len - lo)).map b.data

/-- Python index assignment `b[i] = v`: fails (raises `IndexError`)
when the index is out of range. -/
def Buf.setByte (b : Buf) (i v : Nat) : Option Buf :=
  if i < b.len then some ⟨b.len, fun j => if j = i then v else b.data j⟩ else none

/-- Reinterpret an unsigned 32-bit value as the signed value that
`struct.unpack('<i', ...)` produces. -/
def toSigned32 (v : Nat) : Int :=
  if v < 2 ^ 31 then (v : Int) else (v : Int) - 2 ^ 32

/-- `struct.unpack('<i', b[off:off+4])`: little-endian signed 32-bit
read; `struct.error` (modelled as `none`) unless the slice has exactly
four bytes. -/
def readLE4 (b : Buf) (off : Nat) : Option Int :=
  match b.slice off (off + 4) with
  | [b0, b1, b2, b3] => some (toSigned32 (b0 + 256 * b1 + 65536 * b2 + 16777216 * b3))
  | _ => none

/-- `struct.pack('<i', charId)[:2]`: the first two little-endian bytes
of the character id. -/
def idBytes (charId : Nat) : List Nat :=
  [charId % 256, charId / 256 % 256]

/-- The literal bytes `"Mark\0"` of the record signature. -/
def markFive : List Nat := [77, 97, 114, 107, 0]

/-- The literal bytes `"Mark\0\0\0\0\0"` of the record signature. -/
def markNine : List Nat := [77, 97, 114, 107, 0, 0, 0, 0, 0]

/-- The per-position test of the 22-byte record signature, exactly as
checked inside the scan loop of `process_save_file`: the two id
occurrences and the two marker strings, with bytes `i+2..i+4` and
`i+11..i+13` unconstrained, and the whole template inside the buffer. -/
def checkPatternAt (b : Buf) (idB : List Nat) (i : Nat) : Bool :=
  decide (i + 22 ≤ b.len) &&
  decide (b.slice i (i + 2) = idB) &&
  decide (b.slice (i + 4) (i + 9) = markFive) &&
  decide (b.slice (i + 9) (i + 11) = idB) &&
  decide (b.slice (i + 13) (i + 22) = markNine)

/-- Scan helper: test `fuel` consecutive start positions beginning at
`i`, returning the first position whose signature test succeeds. -/
def scanFrom (b : Buf) (idB : List Nat) : Nat → Nat → Option Nat
  | 0, _ => none
  | fuel + 1, i => if checkPatternAt b idB i then some i else scanFrom b idB fuel (i + 1)

/-- The strict signature scan of `process_save_file`: the first
position in `[start, stop)` matching the 22-byte template
(`for i in range(search_position, max_search_position)`). -/
def findPattern (b : Buf) (idB : List Nat) (start stop : Nat) : Option Nat :=
  scanFrom b idB (stop - start) start

theorem scanFrom_eq_some {b : Buf} {idB : List Nat} {fuel i0 i : Nat} :
    scanFrom b idB fuel i0 = some i ↔
      (i0 ≤ i ∧ i < i0 + fuel ∧ checkPatternAt b idB i = true ∧
        ∀ j, i0 ≤ j → j < i → checkPatternAt b idB j = false) := by
  induction fuel generalizing i0 with
  | zero => simp [scanFrom]; omega
  | succ n ih =>
    rw [scanFrom]
    by_cases h : checkPatternAt b idB i0 = true
    · simp only [h, if_true]
      constructor
      · rintro h'
        obtain rfl : i0 = i := by simpa using h'
        exact ⟨le_refl _, by omega, h, fun j hj hj' => absurd hj (by omega)⟩
      · rintro ⟨h1, h2, h3, h4⟩
        rcases Nat.eq_or_lt_of_le h1 with rfl | hlt
        · rfl
        · exact absurd h (by simp [h4 i0 (le_refl _) hlt])
    · rw [Bool.not_eq_true] at h
      simp only [h, Bool.false_eq_true, if_false]
      rw [ih]
      constructor
      · rintro ⟨h1, h2, h3, h4⟩
        refine ⟨by omega, by omega, h3, fun j hj hj' => ?_⟩
        rcases Nat.eq_or_lt_of_le hj with rfl | hlt
        · exact h
        · exact h4 j hlt hj'
      · rintro ⟨h1, h2, h3, h4⟩
        have hne : i0 ≠ i := by
          rintro rfl; rw [h] at h3; simp at h3
        exact ⟨by omega, by omega, h3, fun j hj hj' => h4 j (by omega) hj'⟩

theorem findPattern_eq_some {b : Buf} {idB : List Nat} {start stop i : Nat} :
    findPattern b idB start stop = some i ↔
      (start ≤ i ∧ i < stop ∧ checkPatternAt b idB i = true ∧
        ∀ j, start ≤ j → j < i → checkPatternAt b idB j = false) := by
  unfold findPattern
  rw [scanFrom_eq_some]
  constructor <;> (rintro ⟨h1, h2, h3, h4⟩; exact ⟨h1, by omega, h3, h4⟩)

/-- The largest id occurring in a catalog category,
`max([skill['id'] for skill in skills])` (0 for an empty category; the
Python `max` raises on an empty list, which the processor treats as a
fatal error before this value is ever used). -/
def maxIdOf (defs : List Skill) : Nat :=
  (defs.map Skill.id).foldr Nat.max 0

/-- Number of skill-bitfield bytes extracted for a category:
`(max([skill['id'] for skill in ...]) + 7) // 8`. -/
def bytesNeeded (defs : List Skill) : Nat :=
  (maxIdOf defs + 7) / 8

/-- Byte length of the bitfield as the specification document states
it: `ceil((max(id over definitions) + 1) / 8)`.  Kept separate from
`bytesNeeded` (which is translated from the code) so the two can be
compared. -/
def specByteLen (defs : List Skill) : Nat :=
  (maxIdOf defs + 1 + 7) / 8

/-- Whether bit `i % 8` of byte `i / 8` is set, with the guard
`byte_index < len(skill_bytes)` used by the decoding loops of
`process_save_file`. -/
def bitActive (bytes : List Nat) (i : Nat) : Bool :=
  decide (i / 8 < bytes.length) && decide (bytes.getD (i / 8) 0 &&& (1 <<< (i % 8)) ≠ 0)

/-- The decode direction of the codec: the catalog entries (in catalog
order) whose value is not `-1` and whose bit is set in the extracted
bytes. -/
def decodeActive (defs : List Skill) (bytes : List Nat) : List Skill :=
  defs.filter (fun sk => decide (sk.value ≠ -1) && bitActive bytes sk.id)

/-- Grow the byte list with zero bytes until index `bi` exists
(`while len(skill_bytes) <= byte_index: skill_bytes.append(0)`). -/
def growTo (bytes : List Nat) (bi : Nat) : List Nat :=
  bytes ++ List.replicate (bi + 1 - bytes.length) 0

/-- The encode direction of the codec: grow if needed, then
`skill_bytes[byte_index] |= (1 << bit_position)` for
`byte_index = id / 8`, `bit_position = id % 8`. -/
def setBit (bytes : List Nat) (id : Nat) : List Nat :=
  let g := growTo bytes (id / 8)
  g.set (id / 8) (g.getD (id / 8) 0 ||| (1 <<< (id % 8)))

theorem growTo_length (bytes : List Nat) (bi : Nat) :
    (growTo bytes bi).length = max bytes.length (bi + 1) := by
  simp [growTo]; omega

theorem growTo_getD (bytes : List Nat) (bi j : Nat) :
    (growTo bytes bi).getD j 0 = bytes.getD j 0 := by
  unfold growTo
  rcases lt_or_le j bytes.length with h | h
  · rw [List.getD_eq_getElem?_getD, List.getElem?_append_left h,
      ← List.getD_eq_getElem?_getD]
  · rw [List.getD_eq_getElem?_getD, List.getD_eq_getElem?_getD,
      List.getElem?_append_right h, List.getElem?_eq_none h, List.getElem?_replicate]
    split <;> rfl

theorem setBit_length (bytes : List Nat) (id : Nat) :
    (setBit bytes id).length = max bytes.length (id / 8 + 1) := by
  simp [setBit, growTo_length]

theorem setBit_getD_self (bytes : List Nat) (id : Nat) :
    (setBit bytes id).getD (id / 8) 0 = bytes.getD (id / 8) 0 ||| (1 <<< (id % 8)) := by
  unfold setBit
  have hlen : id / 8 < (growTo bytes (id / 8)).length := by
    rw [growTo_length]; omega
  rw [List.getD_eq_getElem?_getD, List.getElem?_set, if_pos rfl, if_pos hlen]
  rw [Option.getD_some, growTo_getD]

theorem setBit_getD_other (bytes : List Nat) (id j : Nat) (h : j ≠ id / 8) :
    (setBit bytes id).getD j 0 = bytes.getD j 0 := by
  unfold setBit
  rw [List.getD_eq_getElem?_getD, List.getElem?_set, if_neg (Ne.symm h),
    ← List.getD_eq_getElem?_getD, growTo_getD]

theorem and_shift_ne_zero (n p : Nat) : (n &&& (1 <<< p) ≠ 0) ↔ n.testBit p = true := by
  rw [Nat.one_shiftLeft, Nat.and_two_pow]
  cases h : n.testBit p <;> simp [h]

theorem bitActive_eq_testBit (bytes : List Nat) (i : Nat) :
    bitActive bytes i = (bytes.getD (i / 8) 0).testBit (i % 8) := by
  unfold bitActive
  rcases lt_or_le (i / 8) bytes.length with h | h
  · simp only [h, decide_True, Bool.true_and]
    rcases hb : (bytes.getD (i / 8) 0).testBit (i % 8) with _ | _
    · simp only [decide_eq_false_iff_not, ne_eq, not_not]
      rw [Nat.one_shiftLeft, Nat.and_two_pow, hb]
      simp
    · simp only [decide_eq_true_eq, ne_eq]
      rw [Nat.one_shiftLeft, Nat.and_two_pow, hb]
      have := Nat.two_pow_pos (i % 8)
      simp only [Bool.toNat_true, one_mul]
      omega
  · have hz : bytes.getD (i / 8) 0 = 0 := by
      rw [List.getD_eq_getElem?_getD, List.getElem?_eq_none h]
      rfl
    rw [hz]
    simp [Nat.not_lt.mpr h, Nat.zero_testBit]

/-- Setting the bit for `id` changes the activity of exactly the bit
`id` and of no other bit index: the encode step never clears a bit. -/
theorem bitActive_setBit (bytes : List Nat) (id i : Nat) :
    bitActive (setBit bytes id) i = (bitActive bytes i || decide (i = id)) := by
  rw [bitActive_eq_testBit, bitActive_eq_testBit]
  by_cases h : i / 8 = id / 8
  · rw [h, setBit_getD_self, Nat.one_shiftLeft, Nat.testBit_or, Nat.testBit_two_pow]
    congr 1
    simp only [decide_eq_decide]
    omega
  · rw [setBit_getD_other _ _ _ h]
    have : i ≠ id := by omega
    simp [this]

/-- Python `int(x)` on a float: truncation toward zero, over the
rational model of the float values. -/
def pytrunc (q : Rat) : Int :=
  if 0 ≤ q then ⌊q⌋ else ⌈q⌉

/-- The upper bound passed to `random.randint` by the allocation loop:
`max(1, int(max_random) - 1)`. -/
def randUpper (mr : Rat) : Int :=
  max 1 (pytrunc mr - 1)

/-- Modelled from the spec: the upper bound of the random draw as the
specification document states it, `max(1, floor(maxRandom)) - 1`.
Kept separate from `randUpper` (translated from the code) so the two
can be compared. -/
def specRandUpper (mr : Rat) : Int :=
  max 1 ⌊mr⌋ - 1

/-- `random.randint(a, b)`: one oracle value mapped into `[a, b]`; the
model is uniform on that range whenever the oracle is uniform. -/
def randintM (rng : Nat → Nat) (k : Nat) (a b : Int) : Int :=
  a + (rng k : Int) % (b - a + 1)

/-- Result of one call of `_try_add_skill`: the returned flag and
skill, the (possibly mutated) skill bytes and active list, and the
advanced oracle index. -/
structure TryResult where
  added : Bool
  newSkill : Option Skill
  bytes : List Nat
  active : List Skill
  rix : Nat
deriving DecidableEq

/-- The retry loop inside `_try_add_skill`
(`for _ in range(self.pick_limit)`): pick a uniformly random candidate
from `available`, reject it when
`max_attribute - current_attribute < skill['value']`, otherwise set its
bit and append it to the active list. -/
def tryAddGo (rng : Nat → Nat) (available : List Skill) (skill_bytes : List Nat)
    (active_skills : List Skill) (current max_attribute : Rat) :
    Nat → Nat → TryResult
  | 0, rix => ⟨false, none, skill_bytes, active_skills, rix⟩
  | n + 1, rix =>
    let sk := available.getD (rng rix % available.length) ⟨0, 0⟩
    if max_attribute - current < (sk.value : Rat) then
      tryAddGo rng available skill_bytes active_skills current max_attribute n (rix + 1)
    else
      ⟨true, some sk, setBit skill_bytes sk.id, active_skills ++ [sk], rix + 1⟩

/-- `_try_add_skill`: compute the available skills (catalog entries not
yet active and not disabled), fail when there are none, otherwise run
the pick loop. -/
def try_add_skill (rng : Nat → Nat) (pick_limit : Nat) (all_skills : List Skill)
    (skill_bytes : List Nat) (active_skills : List Skill) (current max_attribute : Rat)
    (rix : Nat) : TryResult :=
  let available := all_skills.filter fun sk => decide (sk ∉ active_skills) && decide (sk.value ≠ -1)
  if available.isEmpty then ⟨false, none, skill_bytes, active_skills, rix⟩
  else tryAddGo rng available skill_bytes active_skills current max_attribute pick_limit rix

/-- The loop-constant data of the per-character allocation loop. -/
structure AllocCtx where
  cats : Catalog
  pick_limit : Nat
  reroll_limit : Nat
  strFactor : Rat
  max_random : Rat
  max_attribute : Rat
  rng : Nat → Nat

/-- The mutable state of the per-character allocation loop: the current
attribute value, the three skill-byte buffers, the three active lists,
the three lists of newly added skills, the consecutive-failure counter
and the oracle index. -/
structure AllocState where
  current : Rat
  bytesM : List Nat
  bytesC : List Nat
  bytesP : List Nat
  activeM : List Skill
  activeC : List Skill
  activeP : List Skill
  addedM : List Skill
  addedC : List Skill
  addedP : List Skill
  failures : Nat
  rix : Nat
deriving DecidableEq

/-- The value of `active_skills[-1]` used to update the current
attribute after a successful addition (the list is never empty at that
point, so the default is never taken). -/
def lastValue (l : List Skill) : Int :=
  (l.getLast?.map Skill.value).getD 0

/-- One iteration of the `while consecutive_failures < reroll_limit`
body of `process_save_file`: draw `random_value`, choose the target
category (`personal` when `random_value < strength * str_random_rate`,
otherwise `marshal` on a 0 draw from `randint(0, 2)` and `commander`
otherwise), call `_try_add_skill`, then update the failure counter and
the current attribute value.  The boolean result is the iteration's
`skill_added` flag. -/
def allocBody (ctx : AllocCtx) (s : AllocState) : AllocState × Bool :=
  let random_value := randintM ctx.rng s.rix 0 (randUpper ctx.max_random)
  if (random_value : Rat) < ctx.strFactor then
    let r := try_add_skill ctx.rng ctx.pick_limit ctx.cats.personal_skills s.bytesP s.activeP
      s.current ctx.max_attribute (s.rix + 1)
    if r.added then
      ({ s with bytesP := r.bytes, activeP := r.active,
                addedP := s.addedP ++ r.newSkill.toList, failures := 0,
                current := s.current + (lastValue r.active : Rat), rix := r.rix }, true)
    else
      ({ s with bytesP := r.bytes, activeP := r.active,
                failures := s.failures + 1, rix := r.rix }, false)
  else
    let d := randintM ctx.rng (s.rix + 1) 0 2
    if d = 0 then
      let r := try_add_skill ctx.rng ctx.pick_limit ctx.cats.marshal_skills s.bytesM s.activeM
        s.current ctx.max_attribute (s.rix + 2)
      if r.added then
        ({ s with bytesM := r.bytes, activeM := r.active,
                  addedM := s.addedM ++ r.newSkill.toList, failures := 0,
                  current := s.current + (lastValue r.active : Rat), rix := r.rix }, true)
      else
        ({ s with bytesM := r.bytes, activeM := r.active,
                  failures := s.failures + 1, rix := r.rix }, false)
    else
      let r := try_add_skill ctx.rng ctx.pick_limit ctx.cats.commander_skills s.bytesC s.activeC
        s.current ctx.max_attribute (s.rix + 2)
      if r.added then
        ({ s with bytesC := r.bytes, activeC := r.active,
                  addedC := s.addedC ++ r.newSkill.toList, failures := 0,
                  current := s.current + (lastValue r.active : Rat), rix := r.rix }, true)
      else
        ({ s with bytesC := r.bytes, activeC := r.active,
                  failures := s.failures + 1, rix := r.rix }, false)

/-- The termination test at the end of the loop body: all three active
lists have the full catalog length. -/
def allFull (cats : Catalog) (s : AllocState) : Bool :=
  decide (s.activeM.length = cats.marshal_skills.length) &&
  decide (s.activeC.length = cats.commander_skills.length) &&
  decide (s.activeP.length = cats.personal_skills.length)

/-- Number of catalog entries still available for addition, summed over
the three categories; used only to size the fuel of the loop. -/
def availCount (cats : Catalog) (s : AllocState) : Nat :=
  (cats.marshal_skills.filter fun sk => decide (sk ∉ s.activeM) && decide (sk.value ≠ -1)).length +
  (cats.commander_skills.filter fun sk => decide (sk ∉ s.activeC) && decide (sk.value ≠ -1)).length +
  (cats.personal_skills.filter fun sk => decide (sk ∉ s.activeP) && decide (sk.value ≠ -1)).length

/-- The allocation loop, driven by fuel: while
`consecutive_failures < reroll_limit`, run the body; break after the
body when all three catalogs are fully active. -/
def allocLoopFuel (ctx : AllocCtx) : Nat → AllocState → AllocState
  | 0, s => s
  | fuel + 1, s =>
    if s.failures < ctx.reroll_limit then
      let r := allocBody ctx s
      if allFull ctx.cats r.1 then r.1 else allocLoopFuel ctx fuel r.1
    else s

/-- The allocation loop with enough fuel to always reach the exit
condition of the source loop (proved below), so that it models the
unbounded `while` loop of `process_save_file`. -/
def runAllocLoop (ctx : AllocCtx) (s : AllocState) : AllocState :=
  allocLoopFuel ctx ((availCount ctx.cats s + 1) * (ctx.reroll_limit + 1)) s

theorem lastValue_concat (l : List Skill) (sk : Skill) :
    lastValue (l ++ [sk]) = sk.value := by
  simp [lastValue, List.getLast?_concat]

theorem tryAddGo_fail {rng : Nat → Nat} {available : List Skill} {skill_bytes : List Nat}
    {active_skills : List Skill} {current max_attribute : Rat} {n rix : Nat}
    (h : (tryAddGo rng available skill_bytes active_skills current max_attribute n rix).added
      = false) :
    (tryAddGo rng available skill_bytes active_skills current max_attribute n rix).bytes
        = skill_bytes ∧
    (tryAddGo rng available skill_bytes active_skills current max_attribute n rix).active
        = active_skills := by
  induction n generalizing rix with
  | zero => exact ⟨rfl, rfl⟩
  | succ m ih =>
    simp only [tryAddGo] at h ⊢
    by_cases hc : max_attribute - current <
        ((available.getD (rng rix % available.length) ⟨0, 0⟩).value : Rat)
    · rw [if_pos hc] at h ⊢
      exact ih h
    · rw [if_neg hc] at h
      simp at h

theorem tryAddGo_succ {rng : Nat → Nat} {available : List Skill} {skill_bytes : List Nat}
    {active_skills : List Skill} {current max_attribute : Rat} {n rix : Nat}
    (hne : available ≠ [])
    (h : (tryAddGo rng available skill_bytes active_skills current max_attribute n rix).added
      = true) :
    ∃ sk ∈ available,
      (tryAddGo rng available skill_bytes active_skills current max_attribute n rix).newSkill
          = some sk ∧
      (tryAddGo rng available skill_bytes active_skills current max_attribute n rix).bytes
          = setBit skill_bytes sk.id ∧
      (tryAddGo rng available skill_bytes active_skills current max_attribute n rix).active
          = active_skills ++ [sk] ∧
      (sk.value : Rat) ≤ max_attribute - current := by
  induction n generalizing rix with
  | zero => simp [tryAddGo] at h
  | succ m ih =>
    simp only [tryAddGo] at h ⊢
    by_cases hc : max_attribute - current <
        ((available.getD (rng rix % available.length) ⟨0, 0⟩).value : Rat)
    · rw [if_pos hc] at h ⊢
      exact ih h
    · rw [if_neg hc] at h ⊢
      refine ⟨available.getD (rng rix % available.length) ⟨0, 0⟩, ?_, rfl, rfl, rfl,
        le_of_not_lt hc⟩
      have hlen : rng rix % available.length < available.length :=
        Nat.mod_lt _ (List.length_pos.mpr hne)
      rw [List.getD_eq_getElem _ _ hlen]
      exact List.getElem_mem hlen

theorem try_add_skill_fail {rng : Nat → Nat} {pick_limit : Nat} {all_skills : List Skill}
    {skill_bytes : List Nat} {active_skills : List Skill} {current max_attribute : Rat}
    {rix : Nat}
    (h : (try_add_skill rng pick_limit all_skills skill_bytes active_skills current
        max_attribute rix).added = false) :
    (try_add_skill rng pick_limit all_skills skill_bytes active_skills current
        max_attribute rix).bytes = skill_bytes ∧
    (try_add_skill rng pick_limit all_skills skill_bytes active_skills current
        max_attribute rix).active = active_skills := by
  simp only [try_add_skill] at h ⊢
  by_cases he : (all_skills.filter
      fun sk => decide (sk ∉ active_skills) && decide (sk.value ≠ -1)).isEmpty = true
  · rw [if_pos he]
    exact ⟨rfl, rfl⟩
  · rw [if_neg he] at h ⊢
    exact tryAddGo_fail h

theorem try_add_skill_succ {rng : Nat → Nat} {pick_limit : Nat} {all_skills : List Skill}
    {skill_bytes : List Nat} {active_skills : List Skill} {current max_attribute : Rat}
    {rix : Nat}
    (h : (try_add_skill rng pick_limit all_skills skill_bytes active_skills current
        max_attribute rix).added = true) :
    ∃ sk, sk ∈ all_skills ∧ sk ∉ active_skills ∧ sk.value ≠ -1 ∧
      (try_add_skill rng pick_limit all_skills skill_bytes active_skills current
          max_attribute rix).newSkill = some sk ∧
      (try_add_skill rng pick_limit all_skills skill_bytes active_skills current
          max_attribute rix).bytes = setBit skill_bytes sk.id ∧
      (try_add_skill rng pick_limit all_skills skill_bytes active_skills current
          max_attribute rix).active = active_skills ++ [sk] ∧
      (sk.value : Rat) ≤ max_attribute - current := by
  simp only [try_add_skill] at h ⊢
  by_cases he : (all_skills.filter
      fun sk => decide (sk ∉ active_skills) && decide (sk.value ≠ -1)).isEmpty = true
  · rw [if_pos he] at h
    simp at h
  · rw [if_neg he] at h ⊢
    have hne' :
        all_skills.filter
          (fun sk => decide (sk ∉ active_skills) && decide (sk.value ≠ -1)) ≠ [] := by
      intro hnil
      exact he (by rw [hnil]; rfl)
    obtain ⟨sk, hmem, h1, h2, h3, h4⟩ := tryAddGo_succ hne' h
    rw [List.mem_filter] at hmem
    obtain ⟨hcat, hpred⟩ := hmem
    rw [Bool.and_eq_true, decide_eq_true_eq, decide_eq_true_eq] at hpred
    exact ⟨sk, hcat, hpred.1, hpred.2, h1, h2, h3, h4⟩

theorem allocBody_fail {ctx : AllocCtx} {s s' : AllocState}
    (h : allocBody ctx s = (s', false)) :
    s'.failures = s.failures + 1 ∧ s'.current = s.current ∧
    s'.bytesM = s.bytesM ∧ s'.activeM = s.activeM ∧ s'.addedM = s.addedM ∧
    s'.bytesC = s.bytesC ∧ s'.activeC = s.activeC ∧ s'.addedC = s.addedC ∧
    s'.bytesP = s.bytesP ∧ s'.activeP = s.activeP ∧ s'.addedP = s.addedP := by
  simp only [allocBody] at h
  split at h
  · split at h
    · injection h with h1 h2
      exact absurd h2 (by simp)
    · rename_i hr
      rw [Bool.not_eq_true] at hr
      obtain ⟨hb, ha⟩ := try_add_skill_fail hr
      injection h with h1 h2
      rw [← h1]
      simp [hb, ha]
  · split at h
    · split at h
      · injection h with h1 h2
        exact absurd h2 (by simp)
      · rename_i hr
        rw [Bool.not_eq_true] at hr
        obtain ⟨hb, ha⟩ := try_add_skill_fail hr
        injection h with h1 h2
        rw [← h1]
        simp [hb, ha]
    · split at h
      · injection h with h1 h2
        exact absurd h2 (by simp)
      · rename_i hr
        rw [Bool.not_eq_true] at hr
        obtain ⟨hb, ha⟩ := try_add_skill_fail hr
        injection h with h1 h2
        rw [← h1]
        simp [hb, ha]

theorem allocBody_succ {ctx : AllocCtx} {s s' : AllocState}
    (h : allocBody ctx s = (s', true)) :
    s'.failures = 0 ∧ ∃ sk : Skill,
      (sk.value : Rat) ≤ ctx.max_attribute - s.current ∧
      s'.current = s.current + (sk.value : Rat) ∧
      ((sk ∈ ctx.cats.personal_skills ∧ sk ∉ s.activeP ∧ sk.value ≠ -1 ∧
        s'.bytesP = setBit s.bytesP sk.id ∧ s'.activeP = s.activeP ++ [sk] ∧
        s'.addedP = s.addedP ++ [sk] ∧ s'.bytesM = s.bytesM ∧ s'.activeM = s.activeM ∧
        s'.addedM = s.addedM ∧ s'.bytesC = s.bytesC ∧ s'.activeC = s.activeC ∧
        s'.addedC = s.addedC) ∨
       (sk ∈ ctx.cats.marshal_skills ∧ sk ∉ s.activeM ∧ sk.value ≠ -1 ∧
        s'.bytesM = setBit s.bytesM sk.id ∧ s'.activeM = s.activeM ++ [sk] ∧
        s'.addedM = s.addedM ++ [sk] ∧ s'.bytesP = s.bytesP ∧ s'.activeP = s.activeP ∧
        s'.addedP = s.addedP ∧ s'.bytesC = s.bytesC ∧ s'.activeC = s.activeC ∧
        s'.addedC = s.addedC) ∨
       (sk ∈ ctx.cats.commander_skills ∧ sk ∉ s.activeC ∧ sk.value ≠ -1 ∧
        s'.bytesC = setBit s.bytesC sk.id ∧ s'.activeC = s.activeC ++ [sk] ∧
        s'.addedC = s.addedC ++ [sk] ∧ s'.bytesP = s.bytesP ∧ s'.activeP = s.activeP ∧
        s'.addedP = s.addedP ∧ s'.bytesM = s.bytesM ∧ s'.activeM = s.activeM ∧
        s'.addedM = s.addedM)) := by
  simp only [allocBody] at h
  split at h
  · split at h
    · rename_i hr
      obtain ⟨sk, hcat, hnotin, hval, hns, hbytes, hactive, hle⟩ := try_add_skill_succ hr
      injection h with h1 h2
      rw [← h1]
      refine ⟨rfl, sk, hle, ?_, Or.inl ⟨hcat, hnotin, hval, by simp [hbytes],
        by simp [hactive], by simp [hns], rfl, rfl, rfl, rfl, rfl, rfl⟩⟩
      simp only [hactive, lastValue_concat]
    · injection h with h1 h2
      exact absurd h2 (by simp)
  · split at h
    · split at h
      · rename_i hr
        obtain ⟨sk, hcat, hnotin, hval, hns, hbytes, hactive, hle⟩ := try_add_skill_succ hr
        injection h with h1 h2
        rw [← h1]
        refine ⟨rfl, sk, hle, ?_, Or.inr (Or.inl ⟨hcat, hnotin, hval, by simp [hbytes],
          by simp [hactive], by simp [hns], rfl, rfl, rfl, rfl, rfl, rfl⟩)⟩
        simp only [hactive, lastValue_concat]
      · injection h with h1 h2
        exact absurd h2 (by simp)
    · split at h
      · rename_i hr
        obtain ⟨sk, hcat, hnotin, hval, hns, hbytes, hactive, hle⟩ := try_add_skill_succ hr
        injection h with h1 h2
        rw [← h1]
        refine ⟨rfl, sk, hle, ?_, Or.inr (Or.inr ⟨hcat, hnotin, hval, by simp [hbytes],
          by simp [hactive], by simp [hns], rfl, rfl, rfl, rfl, rfl, rfl⟩)⟩
        simp only [hactive, lastValue_concat]
      · injection h with h1 h2
        exact absurd h2 (by simp)

theorem filter_avail_concat (cat active : List Skill) (sk : Skill)
    (hmem : sk ∈ cat) (hnotin : sk ∉ active) (hval : sk.value ≠ -1) :
    (cat.filter fun x => decide (x ∉ active ++ [sk]) && decide (x.value ≠ -1)).length <
      (cat.filter fun x => decide (x ∉ active) && decide (x.value ≠ -1)).length := by
  have hpred : cat.filter (fun x => decide (x ∉ active ++ [sk]) && decide (x.value ≠ -1)) =
      (cat.filter fun x => decide (x ∉ active) && decide (x.value ≠ -1)).filter
        fun x => decide (x ≠ sk) := by
    rw [List.filter_filter]
    apply List.filter_congr
    intro x _
    by_cases h1 : x ∈ active <;> by_cases h2 : x = sk <;>
      simp [h1, h2, List.mem_append]
  rw [hpred]
  rw [List.length_filter_lt_length_iff_exists]
  refine ⟨sk, ?_, by simp⟩
  rw [List.mem_filter]
  exact ⟨hmem, by simp [hnotin, hval]⟩

theorem allocBody_avail_lt {ctx : AllocCtx} {s s' : AllocState}
    (h : allocBody ctx s = (s', true)) :
    availCount ctx.cats s' < availCount ctx.cats s := by
  obtain ⟨-, sk, -, -, hcase⟩ := allocBody_succ h
  unfold availCount
  rcases hcase with
      ⟨hcat, hnotin, hval, -, hact, -, -, hAM, -, -, hAC, -⟩ |
      ⟨hcat, hnotin, hval, -, hact, -, -, hAP, -, -, hAC, -⟩ |
      ⟨hcat, hnotin, hval, -, hact, -, -, hAP, -, -, hAM, -⟩
  · rw [hAM, hAC, hact]
    have := filter_avail_concat ctx.cats.personal_skills s.activeP sk hcat hnotin hval
    omega
  · rw [hAP, hAC, hact]
    have := filter_avail_concat ctx.cats.marshal_skills s.activeM sk hcat hnotin hval
    omega
  · rw [hAP, hAM, hact]
    have := filter_avail_concat ctx.cats.commander_skills s.activeC sk hcat hnotin hval
    omega

theorem allocBody_avail_eq {ctx : AllocCtx} {s s' : AllocState}
    (h : allocBody ctx s = (s', false)) :
    availCount ctx.cats s' = availCount ctx.cats s := by
  obtain ⟨-, -, -, hAM, -, -, hAC, -, -, hAP, -⟩ := allocBody_fail h
  unfold availCount
  rw [hAM, hAC, hAP]

/-- The exit condition of the allocation loop: the failure counter has
reached the reroll limit, or all three catalogs are fully active. -/
def exitCond (ctx : AllocCtx) (s : AllocState) : Prop :=
  ctx.reroll_limit ≤ s.failures ∨ allFull ctx.cats s = true

/-- Termination measure of the allocation loop. -/
def loopMeasure (ctx : AllocCtx) (s : AllocState) : Nat :=
  availCount ctx.cats s * (ctx.reroll_limit + 1) + (ctx.reroll_limit - s.failures)

theorem allocLoopFuel_exit (ctx : AllocCtx) :
    ∀ fuel s, loopMeasure ctx s < fuel → exitCond ctx (allocLoopFuel ctx fuel s) := by
  intro fuel
  induction fuel with
  | zero => exact fun s h => absurd h (Nat.not_lt_zero _)
  | succ n ih =>
    intro s h
    rw [allocLoopFuel]
    by_cases hf : s.failures < ctx.reroll_limit
    · rw [if_pos hf]
      rcases hab : allocBody ctx s with ⟨s2, flag⟩
      simp only [hab]
      by_cases hfull : allFull ctx.cats s2 = true
      · rw [if_pos hfull]
        exact Or.inr hfull
      · rw [if_neg hfull]
        apply ih
        have hlt : loopMeasure ctx s2 < loopMeasure ctx s := by
          unfold loopMeasure
          cases flag with
          | false =>
            have hfails := (allocBody_fail hab).1
            have havail := allocBody_avail_eq hab
            rw [havail, hfails]
            omega
          | true =>
            have havail := allocBody_avail_lt hab
            have h1 : availCount ctx.cats s2 * (ctx.reroll_limit + 1) + (ctx.reroll_limit + 1) ≤
                availCount ctx.cats s * (ctx.reroll_limit + 1) := by
              have h2 := Nat.mul_le_mul_right (ctx.reroll_limit + 1)
                (show availCount ctx.cats s2 + 1 ≤ availCount ctx.cats s by omega)
              calc availCount ctx.cats s2 * (ctx.reroll_limit + 1) + (ctx.reroll_limit + 1)
                  = (availCount ctx.cats s2 + 1) * (ctx.reroll_limit + 1) := by ring
                _ ≤ availCount ctx.cats s * (ctx.reroll_limit + 1) := h2
            omega
        omega
    · rw [if_neg hf]
      exact Or.inl (by omega)

theorem allocLoopFuel_failures_le (ctx : AllocCtx) :
    ∀ fuel s, s.failures ≤ ctx.reroll_limit →
      (allocLoopFuel ctx fuel s).failures ≤ ctx.reroll_limit := by
  intro fuel
  induction fuel with
  | zero => exact fun s h => h
  | succ n ih =>
    intro s h
    rw [allocLoopFuel]
    by_cases hf : s.failures < ctx.reroll_limit
    · rw [if_pos hf]
      rcases hab : allocBody ctx s with ⟨s2, flag⟩
      simp only [hab]
      have hs2 : s2.failures ≤ ctx.reroll_limit := by
        cases flag with
        | false => have := (allocBody_fail hab).1; omega
        | true => have := (allocBody_succ hab).1; omega
      by_cases hfull : allFull ctx.cats s2 = true
      · rw [if_pos hfull]; exact hs2
      · rw [if_neg hfull]; exact ih s2 hs2
    · rw [if_neg hf]
      exact h

theorem runAllocLoop_exit (ctx : AllocCtx) (s : AllocState) :
    exitCond ctx (runAllocLoop ctx s) := by
  apply allocLoopFuel_exit
  unfold loopMeasure
  rw [Nat.succ_mul]
  omega

theorem runAllocLoop_failures_le (ctx : AllocCtx) (s : AllocState)
    (h : s.failures ≤ ctx.reroll_limit) :
    (runAllocLoop ctx s).failures ≤ ctx.reroll_limit :=
  allocLoopFuel_failures_le ctx _ s h

/-- The per-category codec invariant maintained by the allocation
loop: the bitfield bytes and the active list represent the same set of
non-disabled catalog entries, the active list has no duplicates, and
every active entry is a non-disabled catalog entry. -/
def CatInv (cat : List Skill) (bytes : List Nat) (active : List Skill) : Prop :=
  (∀ x ∈ cat, x.value ≠ -1 → (bitActive bytes x.id = true ↔ x ∈ active)) ∧
  active.Nodup ∧ (∀ x ∈ active, x ∈ cat ∧ x.value ≠ -1)

theorem decodeActive_catInv (cat : List Skill) (bytes : List Nat)
    (hnd : (cat.map Skill.id).Nodup) :
    CatInv cat bytes (decodeActive cat bytes) := by
  refine ⟨?_, ?_, ?_⟩
  · intro x hx hv
    unfold decodeActive
    rw [List.mem_filter]
    constructor
    · intro hb
      exact ⟨hx, by simp [hv, hb]⟩
    · intro hb
      have := hb.2
      simp only [Bool.and_eq_true, decide_eq_true_eq] at this
      exact this.2
  · exact (List.Nodup.of_map _ hnd).filter _
  · intro x hx
    unfold decodeActive at hx
    rw [List.mem_filter] at hx
    obtain ⟨h1, h2⟩ := hx
    simp only [Bool.and_eq_true, decide_eq_true_eq] at h2
    exact ⟨h1, h2.1⟩

theorem CatInv_add {cat : List Skill} {bytes : List Nat} {active : List Skill} {sk : Skill}
    (hnd : (cat.map Skill.id).Nodup) (hinv : CatInv cat bytes active)
    (hmem : sk ∈ cat) (hnotin : sk ∉ active) (hval : sk.value ≠ -1) :
    CatInv cat (setBit bytes sk.id) (active ++ [sk]) := by
  obtain ⟨hbit, hnodup, hsub⟩ := hinv
  refine ⟨?_, ?_, ?_⟩
  · intro x hx hv
    rw [bitActive_setBit]
    constructor
    · intro hor
      rcases Bool.or_eq_true_iff.mp hor with h | h
      · exact List.mem_append_left _ ((hbit x hx hv).mp h)
      · rw [decide_eq_true_eq] at h
        have : x = sk := List.inj_on_of_nodup_map hnd hx hmem h
        rw [this]
        exact List.mem_append_right _ (List.mem_singleton_self _)
    · intro hx'
      rcases List.mem_append.mp hx' with h | h
      · rw [(hbit x hx hv).mpr h]
        simp
      · rw [List.mem_singleton] at h
        simp [h]
  · rw [List.nodup_append]
    exact ⟨hnodup, List.nodup_singleton _, List.disjoint_singleton.mpr hnotin⟩
  · intro x hx
    rcases List.mem_append.mp hx with h | h
    · exact hsub x h
    · rw [List.mem_singleton] at h
      rw [h]
      exact ⟨hmem, hval⟩

theorem CatInv_decode_iff {cat : List Skill} {bytes : List Nat} {active : List Skill}
    (hinv : CatInv cat bytes active) :
    ∀ x, x ∈ decodeActive cat bytes ↔ x ∈ active := by
  obtain ⟨hbit, hnodup, hsub⟩ := hinv
  intro x
  unfold decodeActive
  rw [List.mem_filter]
  constructor
  · intro ⟨h1, h2⟩
    simp only [Bool.and_eq_true, decide_eq_true_eq] at h2
    exact (hbit x h1 h2.1).mp h2.2
  · intro hx
    obtain ⟨h1, h2⟩ := hsub x hx
    exact ⟨h1, by simp [h2, (hbit x h1 h2).mpr hx]⟩

/-- The full loop invariant for the round-trip property: the codec
invariant holds in all three categories, and each active list is the
initial active list followed by the skills added so far. -/
def AllInv (ctx : AllocCtx) (aM0 aC0 aP0 : List Skill) (s : AllocState) : Prop :=
  CatInv ctx.cats.marshal_skills s.bytesM s.activeM ∧
  CatInv ctx.cats.commander_skills s.bytesC s.activeC ∧
  CatInv ctx.cats.personal_skills s.bytesP s.activeP ∧
  s.activeM = aM0 ++ s.addedM ∧ s.activeC = aC0 ++ s.addedC ∧ s.activeP = aP0 ++ s.addedP

theorem allocBody_allInv {ctx : AllocCtx} {s : AllocState} {aM0 aC0 aP0 : List Skill}
    (hndM : (ctx.cats.marshal_skills.map Skill.id).Nodup)
    (hndC : (ctx.cats.commander_skills.map Skill.id).Nodup)
    (hndP : (ctx.cats.personal_skills.map Skill.id).Nodup)
    (hinv : AllInv ctx aM0 aC0 aP0 s) :
    AllInv ctx aM0 aC0 aP0 (allocBody ctx s).1 := by
  obtain ⟨hM, hC, hP, heM, heC, heP⟩ := hinv
  rcases hab : allocBody ctx s with ⟨s2, flag⟩
  show AllInv ctx aM0 aC0 aP0 s2
  cases flag with
  | false =>
    obtain ⟨-, -, hbM, haM, hdM, hbC, haC, hdC, hbP, haP, hdP⟩ := allocBody_fail hab
    exact ⟨by rw [hbM, haM]; exact hM, by rw [hbC, haC]; exact hC, by rw [hbP, haP]; exact hP,
      by rw [haM, hdM]; exact heM, by rw [haC, hdC]; exact heC, by rw [haP, hdP]; exact heP⟩
  | true =>
    obtain ⟨-, sk, -, -, hcase⟩ := allocBody_succ hab
    rcases hcase with
        ⟨hcat, hnotin, hval, hby, hac, had, hbM, haM, hdM, hbC, haC, hdC⟩ |
        ⟨hcat, hnotin, hval, hby, hac, had, hbP, haP, hdP, hbC, haC, hdC⟩ |
        ⟨hcat, hnotin, hval, hby, hac, had, hbP, haP, hdP, hbM, haM, hdM⟩
    · exact ⟨by rw [hbM, haM]; exact hM, by rw [hbC, haC]; exact hC,
        by rw [hby, hac]; exact CatInv_add hndP hP hcat hnotin hval,
        by rw [haM, hdM]; exact heM, by rw [haC, hdC]; exact heC,
        by rw [hac, had, heP, List.append_assoc]⟩
    · exact ⟨by rw [hby, hac]; exact CatInv_add hndM hM hcat hnotin hval,
        by rw [hbC, haC]; exact hC, by rw [hbP, haP]; exact hP,
        by rw [hac, had, heM, List.append_assoc],
        by rw [haC, hdC]; exact heC, by rw [haP, hdP]; exact heP⟩
    · exact ⟨by rw [hbM, haM]; exact hM,
        by rw [hby, hac]; exact CatInv_add hndC hC hcat hnotin hval,
        by rw [hbP, haP]; exact hP,
        by rw [haM, hdM]; exact heM,
        by rw [hac, had, heC, List.append_assoc],
        by rw [haP, hdP]; exact heP⟩

theorem allocLoopFuel_allInv {ctx : AllocCtx} {aM0 aC0 aP0 : List Skill}
    (hndM : (ctx.cats.marshal_skills.map Skill.id).Nodup)
    (hndC : (ctx.cats.commander_skills.map Skill.id).Nodup)
    (hndP : (ctx.cats.personal_skills.map Skill.id).Nodup) :
    ∀ fuel s, AllInv ctx aM0 aC0 aP0 s →
      AllInv ctx aM0 aC0 aP0 (allocLoopFuel ctx fuel s) := by
  intro fuel
  induction fuel with
  | zero => exact fun s h => h
  | succ n ih =>
    intro s h
    rw [allocLoopFuel]
    by_cases hf : s.failures < ctx.reroll_limit
    · rw [if_pos hf]
      have h2 : AllInv ctx aM0 aC0 aP0 (allocBody ctx s).1 :=
        allocBody_allInv hndM hndC hndP h
      by_cases hfull : allFull ctx.cats (allocBody ctx s).1 = true
      · rw [if_pos hfull]
        exact h2
      · rw [if_neg hfull]
        exact ih _ h2
    · rw [if_neg hf]
      exact h

theorem runAllocLoop_allInv {ctx : AllocCtx} {aM0 aC0 aP0 : List Skill} {s : AllocState}
    (hndM : (ctx.cats.marshal_skills.map Skill.id).Nodup)
    (hndC : (ctx.cats.commander_skills.map Skill.id).Nodup)
    (hndP : (ctx.cats.personal_skills.map Skill.id).Nodup)
    (h : AllInv ctx aM0 aC0 aP0 s) :
    AllInv ctx aM0 aC0 aP0 (runAllocLoop ctx s) :=
  allocLoopFuel_allInv hndM hndC hndP _ s h

/-- The stat clamp `min(max(0, v), 1000)` applied when a stat is out of
the reasonable range. -/
def clampStat (v : Int) : Int := min (max 0 v) 1000

/-- The strength offset derived from a record at `p`: the pattern is 22
bytes, the skip count follows it, and
`strength_offset = pattern_end + 4` plus `skip_value * 4` when the skip
count is positive. -/
def strength_offset_of (p : Nat) (skip : Int) : Nat :=
  p + 22 + 4 + (if 0 < skip then 4 * skip.toNat else 0)

/-- `personal_offset = strength_offset + 0x28C`. -/
def personal_offset_of (so : Nat) : Nat := so + 0x28C

/-- `commander_offset = strength_offset + 0x29C`. -/
def commander_offset_of (so : Nat) : Nat := so + 0x29C

/-- `marshal_offset = strength_offset + 0x2AC`. -/
def marshal_offset_of (so : Nat) : Nat := so + 0x2AC

/-- The write-back loop
`for i, b in enumerate(skill_bytes): save_data[offset + i] = b`; fails
like the Python `IndexError` when a write lands outside the buffer. -/
def writeBytes (b : Buf) (off : Nat) : List Nat → Option Buf
  | [] => some b
  | v :: rest =>
    match b.setByte off v with
    | none => none
    | some b2 => writeBytes b2 (off + 1) rest

/-- The inner second-id scan of the relaxed fallback for character 1:
`for j in range(i+2, min(i+20, len(save_data)-2))`. -/
def scanTwoBytes (b : Buf) (idB : List Nat) : Nat → Nat → Option Nat
  | 0, _ => none
  | fuel + 1, j =>
    if b.slice j (j + 2) = idB then some j else scanTwoBytes b idB fuel (j + 1)

/-- One position of the relaxed fallback pattern for character 1: the
id bytes at `i`, a `"Mark\0"` marker at `i+4` or at `i+13`, and a
second occurrence of the id bytes within the next 20 bytes. -/
def checkRelaxedAt (b : Buf) (idB : List Nat) (i : Nat) : Bool :=
  decide (i + 22 ≤ b.len) &&
  decide (b.slice i (i + 2) = idB) &&
  ((decide (i + 4 < b.len) && decide (b.slice (i + 4) (i + 9) = markFive)) ||
   (decide (i + 13 < b.len) && decide (b.slice (i + 13) (i + 18) = markFive))) &&
  (scanTwoBytes b idB (min (i + 20) (b.len - 2) - (i + 2)) (i + 2)).isSome

/-- Scan helper for the relaxed fallback. -/
def scanRelaxedFrom (b : Buf) (idB : List Nat) : Nat → Nat → Option Nat
  | 0, _ => none
  | fuel + 1, i =>
    if checkRelaxedAt b idB i then some i else scanRelaxedFrom b idB fuel (i + 1)

/-- The relaxed fallback scan for character 1 over `[start, stop)`. -/
def findRelaxed (b : Buf) (idB : List Nat) (start stop : Nat) : Option Nat :=
  scanRelaxedFrom b idB (stop - start) start

/-- The end of the scan window: for character 1 the scan is exhaustive
up to `len - 25`; for later characters it covers 1200 start positions
from the cursor, clamped to `len - 25`. -/
def scanStop (b : Buf) (charId sp : Nat) : Nat :=
  if charId = 1 then b.len - 25 else min (sp + 1200) (b.len - 25)

/-- The complete record search for one character: the strict template
scan over the window, followed (for character 1 only) by the relaxed
fallback over the rest of the buffer. -/
def scanResult (b : Buf) (charId sp : Nat) : Option Nat :=
  match findPattern b (idBytes charId) sp (scanStop b charId sp) with
  | some p => some p
  | none => if charId = 1 then findRelaxed b (idBytes 1) sp (b.len - 25) else none

/-- Derived information about one located character, recorded for the
run statistics and for stating which buffer region the character may
touch. -/
structure CharInfo where
  pos : Nat
  strengthOff : Nat
  zeroStats : Bool
  added : Nat
  lenM : Nat
  lenC : Nat
  lenP : Nat

/-- Outcome of processing one expected character id: a fatal error
(aborts the whole run), a missed bounded scan (skip, cursor unchanged),
or a completed character with the updated buffer, cursor and oracle
index. -/
inductive CharStep where
  | fatal : CharStep
  | notFound : CharStep
  | done (b : Buf) (sp rix : Nat) (info : CharInfo) : CharStep

/-- The write-back phase at the end of one character: the three skill
byte buffers are copied back into the save buffer at the marshal,
commander and personal offsets, in that order. -/
def afterAlloc (b : Buf) (p so : Nat) (s1 : AllocState) : CharStep :=
  match writeBytes b (marshal_offset_of so) s1.bytesM with
  | none => .fatal
  | some b1 =>
    match writeBytes b1 (commander_offset_of so) s1.bytesC with
    | none => .fatal
    | some b2 =>
      match writeBytes b2 (personal_offset_of so) s1.bytesP with
      | none => .fatal
      | some b3 =>
        .done b3 (p + 900) s1.rix
          ⟨p, so, false, s1.addedM.length + s1.addedC.length + s1.addedP.length,
           s1.bytesM.length, s1.bytesC.length, s1.bytesP.length⟩

/-- `sum(skill['value'] * exist_attribute_rate for skill in ... if
skill['value'] != -1)`. -/
def sumActiveValue (rate : Rat) (skills : List Skill) : Rat :=
  ((skills.filter fun sk => decide (sk.value ≠ -1)).map fun sk => (sk.value : Rat) * rate).sum

/-- The tier search: the first index whose threshold exceeds the
current value, defaulting to the number of thresholds. -/
def tierIndex (thresholds : List Rat) (c : Rat) : Nat :=
  (thresholds.findIdx? fun t => decide (c < t)).getD thresholds.length

/-- The initial state of the allocation loop for one character: the
computed current attribute value, the three extracted byte buffers, the
three decoded active lists, empty added lists, zero consecutive
failures, and the oracle index after the `random_extra` draw. -/
def allocStart (cats : Catalog) (bM0 bC0 bP0 : List Nat) (cur0 : Rat) (rix0 : Nat) :
    AllocState :=
  ⟨cur0, bM0, bC0, bP0, decodeActive cats.marshal_skills bM0,
   decodeActive cats.commander_skills bC0, decodeActive cats.personal_skills bP0,
   [], [], [], 0, rix0⟩

/-- The part of one character after both stats were read and found not
both zero: decode the three bitfields, compute the attribute budget,
pick the tier rate, run the allocation loop, write the bytes back.  A
`.fatal` is produced exactly where the Python code raises: `max()` over
an empty catalog, `randint` on an empty range, or an out-of-range list
index into `attribute_rates` (all caught by the top-level handler). -/
def afterStats (cfg : Config) (cats : Catalog) (rng : Nat → Nat) (b : Buf)
    (p rix so : Nat) (strength intelligence : Int) : CharStep :=
  if cats.marshal_skills.isEmpty || cats.commander_skills.isEmpty ||
      cats.personal_skills.isEmpty then .fatal
  else if cfg.random_extra_attribute_max < cfg.random_extra_attribute_min then .fatal
  else
    let marshal_skill_bytes := b.slice (marshal_offset_of so)
      (marshal_offset_of so + bytesNeeded cats.marshal_skills)
    let commander_skill_bytes := b.slice (commander_offset_of so)
      (commander_offset_of so + bytesNeeded cats.commander_skills)
    let personal_skill_bytes := b.slice (personal_offset_of so)
      (personal_offset_of so + bytesNeeded cats.personal_skills)
    let active_marshal := decodeActive cats.marshal_skills marshal_skill_bytes
    let active_commander := decodeActive cats.commander_skills commander_skill_bytes
    let active_personal := decodeActive cats.personal_skills personal_skill_bytes
    let max0 : Rat := 233 + (cfg.extra_attribute : Rat)
    let active_skill_value := sumActiveValue cfg.exist_attribute_rate
      (active_marshal ++ active_commander ++ active_personal)
    let random_extra := randintM rng rix cfg.random_extra_attribute_min
      cfg.random_extra_attribute_max
    let current : Rat := (strength : Rat) * cfg.str_rate +
      (intelligence : Rat) * cfg.int_rate + (random_extra : Rat) + active_skill_value
    match cfg.attribute_rates[tierIndex cfg.attribute_thresholds current]? with
    | none => .fatal
    | some rate =>
      let ctx : AllocCtx := ⟨cats, cfg.pick_limit, cfg.reroll_limit,
        (strength : Rat) * cfg.str_random_rate,
        (strength : Rat) * cfg.str_random_rate + (intelligence : Rat) * cfg.int_random_rate,
        max0 * rate, rng⟩
      afterAlloc b p so (runAllocLoop ctx
        (allocStart cats marshal_skill_bytes commander_skill_bytes personal_skill_bytes
          current (rix + 1)))

/-- The part of one character after the strength offset is known: read
both stats (failure is fatal), skip zero-stat slots without mutation,
clamp out-of-range stats, then continue with the allocation. -/
def afterSkip (cfg : Config) (cats : Catalog) (rng : Nat → Nat) (b : Buf)
    (p rix so : Nat) : CharStep :=
  match readLE4 b so, readLE4 b (so + 4) with
  | some strength0, some intelligence0 =>
    if strength0 = 0 ∧ intelligence0 = 0 then
      .done b (p + 900) rix ⟨p, so, true, 0, 0, 0, 0⟩
    else
      if strength0 < 0 ∨ 1000 < strength0 ∨ intelligence0 < 0 ∨ 1000 < intelligence0 then
        afterStats cfg cats rng b p rix so (clampStat strength0) (clampStat intelligence0)
      else
        afterStats cfg cats rng b p rix so strength0 intelligence0
  | _, _ => .fatal

/-- Processing of one expected character id, translated from the body
of the `for expected_char_id in range(...)` loop of
`process_save_file`: locate the record (not finding character 1 is
fatal, not finding a later character skips it), read the skip count
(its read never fails for a position inside the scan window, and a
failed read raises and is fatal), then proceed with the stats. -/
def processChar (cfg : Config) (cats : Catalog) (rng : Nat → Nat) (charId : Nat)
    (b : Buf) (sp rix : Nat) : CharStep :=
  match scanResult b charId sp with
  | none => if charId = 1 then .fatal else .notFound
  | some p =>
    match readLE4 b (p + 22) with
    | none => .fatal
    | some skip => afterSkip cfg cats rng b p rix (strength_offset_of p skip)

/-- The state threaded through the run: the buffer, the shared search
cursor, the oracle index, and the three statistics counters. -/
structure RunSt where
  buf : Buf
  sp : Nat
  rix : Nat
  total : Nat
  modified : Nat
  skills : Nat

/-- The character loop of `process_save_file` over a list of expected
ids, returning `none` on a fatal error (no output is written) and the
statistics triple together with the final buffer (the written output)
on success. -/
def runAux (cfg : Config) (cats : Catalog) (rng : Nat → Nat) :
    List Nat → RunSt → Option (Nat × Nat × Nat × Buf)
  | [], st => some (st.total, st.modified, st.skills, st.buf)
  | charId :: rest, st =>
    match processChar cfg cats rng charId st.buf st.sp st.rix with
    | .fatal => none
    | .notFound => runAux cfg cats rng rest st
    | .done b sp rix info =>
      runAux cfg cats rng rest
        ⟨b, sp, rix, st.total + 1, st.modified + (if 0 < info.added then 1 else 0),
         st.skills + info.added⟩

/-- `process_save_file`: characters `1 .. last_character_number`, the
search cursor starting at `0x20000`, all statistics at zero; `none`
models a failed run with no output file, `some (total, modified,
skillsAdded, buffer)` a successful run whose final buffer is written to
the output file. -/
def process_save_file (cfg : Config) (cats : Catalog) (rng : Nat → Nat) (b : Buf) :
    Option (Nat × Nat × Nat × Buf) :=
  runAux cfg cats rng (List.range' 1 cfg.last_character_number) ⟨b, 0x20000, 0, 0, 0, 0⟩

/-- Replay of the run that records the `CharInfo` of every completed
character, used to state which buffer regions a run may modify. -/
def runTrace (cfg : Config) (cats : Catalog) (rng : Nat → Nat) :
    List Nat → RunSt → List CharInfo
  | [], _ => []
  | charId :: rest, st =>
    match processChar cfg cats rng charId st.buf st.sp st.rix with
    | .fatal => []
    | .notFound => runTrace cfg cats rng rest st
    | .done b sp rix info =>
      info :: runTrace cfg cats rng rest
        ⟨b, sp, rix, st.total + 1, st.modified + (if 0 < info.added then 1 else 0),
         st.skills + info.added⟩

/-- C6: for every character id and search window, the scanner returns
the smallest position in the window at which the buffer carries the
two-byte little-endian id at `i` and at `i+9`, the marker bytes
`"Mark\0"` at `i+4` and `"Mark\0\0\0\0\0"` at `i+13` (bytes `i+2..i+4`
and `i+11..i+13` unconstrained), the whole 22-byte template inside the
buffer; no earlier window position satisfies the template. -/
theorem c6_signature_scan (b : Buf) (charId start stop i : Nat) :
    findPattern b (idBytes charId) start stop = some i ↔
      (start ≤ i ∧ i < stop ∧ i + 22 ≤ b.len ∧
       b.slice i (i + 2) = idBytes charId ∧
       b.slice (i + 4) (i + 9) = markFive ∧
       b.slice (i + 9) (i + 11) = idBytes charId ∧
       b.slice (i + 13) (i + 22) = markNine ∧
       ∀ j, start ≤ j → j < i → checkPatternAt b (idBytes charId) j = false) := by
  rw [findPattern_eq_some]
  unfold checkPatternAt
  simp only [Bool.and_eq_true, decide_eq_true_eq]
  tauto

/-- C5: for a record at offset `r`, the skip count is the 4-byte
little-endian signed integer at `r+22`, the strength offset is
`r + 26 + (skipCount > 0 ? skipCount*4 : 0)`, the intelligence offset
is the strength offset plus 4, and the three bitfield offsets are the
strength offset plus `0x28C`, `0x29C` and `0x2AC`. -/
theorem c5_field_resolution (b : Buf) (r : Nat) (skip : Int)
    (h : readLE4 b (r + 22) = some skip) :
    (∃ b0 b1 b2 b3 : Nat, b.slice (r + 22) (r + 22 + 4) = [b0, b1, b2, b3] ∧
        skip = toSigned32 (b0 + 256 * b1 + 65536 * b2 + 16777216 * b3)) ∧
    strength_offset_of r skip = r + 26 + (if 0 < skip then skip.toNat * 4 else 0) ∧
    strength_offset_of r skip + 4 = r + 26 + (if 0 < skip then skip.toNat * 4 else 0) + 4 ∧
    personal_offset_of (strength_offset_of r skip) = strength_offset_of r skip + 0x28C ∧
    commander_offset_of (strength_offset_of r skip) = strength_offset_of r skip + 0x29C ∧
    marshal_offset_of (strength_offset_of r skip) = strength_offset_of r skip + 0x2AC := by
  have h2 : strength_offset_of r skip = r + 26 + (if 0 < skip then skip.toNat * 4 else 0) := by
    unfold strength_offset_of
    split <;> omega
  refine ⟨?_, h2, by rw [h2], rfl, rfl, rfl⟩
  unfold readLE4 at h
  split at h
  · rename_i b0 b1 b2 b3 heq
    rw [Option.some.injEq] at h
    exact ⟨b0, b1, b2, b3, heq, h.symm⟩
  · exact absurd h (by simp)

/-- A concrete buffer for the C5 witness: skip count 5 at offset 22. -/
def bufW5 : Buf := ⟨40, fun i => if i = 22 then 5 else 0⟩

theorem c5_field_resolution_witness :
    readLE4 bufW5 (0 + 22) = some 5 ∧
    ((∃ b0 b1 b2 b3 : Nat, bufW5.slice (0 + 22) (0 + 22 + 4) = [b0, b1, b2, b3] ∧
        (5 : Int) = toSigned32 (b0 + 256 * b1 + 65536 * b2 + 16777216 * b3)) ∧
     strength_offset_of 0 5 = 0 + 26 + (if 0 < (5 : Int) then (5 : Int).toNat * 4 else 0) ∧
     strength_offset_of 0 5 + 4 =
       0 + 26 + (if 0 < (5 : Int) then (5 : Int).toNat * 4 else 0) + 4 ∧
     personal_offset_of (strength_offset_of 0 5) = strength_offset_of 0 5 + 0x28C ∧
     commander_offset_of (strength_offset_of 0 5) = strength_offset_of 0 5 + 0x29C ∧
     marshal_offset_of (strength_offset_of 0 5) = strength_offset_of 0 5 + 0x2AC) :=
  ⟨rfl, c5_field_resolution bufW5 0 5 rfl⟩

/-- C2 counterexample: for a non-empty category whose largest id is 8,
the code extracts `(8+7)/8 = 1` byte while the claimed byte length
`ceil((8+1)/8)` is 2. -/
theorem c2_counterexample :
    bytesNeeded [⟨8, 5⟩] = 1 ∧ specByteLen [⟨8, 5⟩] = 2 ∧
    bytesNeeded [⟨8, 5⟩] ≠ specByteLen [⟨8, 5⟩] := by
  refine ⟨rfl, rfl, by decide⟩

/-- C2 amended: the number of extracted skill-bitfield bytes is
`(maxId + 7) / 8 = ceil(maxId / 8)` (and the extraction from the buffer
yields exactly that many bytes when the region fits); this agrees with
the claimed `ceil((maxId + 1) / 8)` exactly when the largest id is not
a multiple of 8. -/
theorem c2_amended (defs : List Skill) (b : Buf) (off : Nat)
    (_hne : defs ≠ []) (hfit : off + bytesNeeded defs ≤ b.len) :
    (b.slice off (off + bytesNeeded defs)).length = bytesNeeded defs ∧
    bytesNeeded defs = (maxIdOf defs + 7) / 8 ∧
    (bytesNeeded defs = specByteLen defs ↔ ¬ (8 ∣ maxIdOf defs)) := by
  refine ⟨?_, rfl, ?_⟩
  · simp only [Buf.slice, List.length_map, List.length_range']
    omega
  · unfold bytesNeeded specByteLen
    rw [Nat.dvd_iff_mod_eq_zero]
    omega

/-- A concrete category and buffer for the C2 witness. -/
def defsW2 : List Skill := [⟨3, 5⟩]

/-- A concrete buffer for the C2 witness. -/
def bufW2 : Buf := ⟨8, fun _ => 0⟩

theorem c2_amended_witness :
    defsW2 ≠ [] ∧ 0 + bytesNeeded defsW2 ≤ bufW2.len ∧
    ((bufW2.slice 0 (0 + bytesNeeded defsW2)).length = bytesNeeded defsW2 ∧
     bytesNeeded defsW2 = (maxIdOf defsW2 + 7) / 8 ∧
     (bytesNeeded defsW2 = specByteLen defsW2 ↔ ¬ (8 ∣ maxIdOf defsW2))) :=
  ⟨by decide, by decide, c2_amended defsW2 bufW2 0 (by decide) (by decide)⟩

/-- The all-ones oracle used in the C3 counterexample. -/
def rngOne : Nat → Nat := fun _ => 1

/-- C3 counterexample: with `maxRandom = 1` (for example strength 1,
intelligence 0, both random rates 1), the bound the code passes to
`randint` is `max(1, int(1) - 1) = 1`, the bound the claim states is
`max(1, floor(1)) - 1 = 0`, and the loop can draw the value 1, outside
the claimed range `[0, 0]`. -/
theorem c3_counterexample :
    randUpper 1 = 1 ∧ specRandUpper 1 = 0 ∧
    randintM rngOne 0 0 (randUpper 1) = 1 ∧
    ¬ (randintM rngOne 0 0 (randUpper 1) ≤ specRandUpper 1) := by
  refine ⟨by decide, by decide, by decide, by decide⟩

/-- C3 amended: in every iteration of the allocation loop the drawn
`randomValue` lies in the inclusive range
`[0, max(1, trunc(maxRandom) - 1)]` (truncation toward zero), the exact
bound `allocBody` passes to the `randint` model, which is uniform on
that range by construction. -/
theorem c3_amended (mr : Rat) (rng : Nat → Nat) (k : Nat) :
    randUpper mr = max 1 (pytrunc mr - 1) ∧
    0 ≤ randintM rng k 0 (randUpper mr) ∧
    randintM rng k 0 (randUpper mr) ≤ randUpper mr := by
  have h1 : (1 : Int) ≤ randUpper mr := le_max_left _ _
  refine ⟨rfl, ?_, ?_⟩
  · unfold randintM
    have := Int.emod_nonneg (rng k : Int) (show randUpper mr - 0 + 1 ≠ 0 by omega)
    omega
  · unfold randintM
    have := Int.emod_lt_of_pos (rng k : Int) (show (0 : Int) < randUpper mr - 0 + 1 by omega)
    omega

/-- C1: whenever an iteration of the allocation loop succeeds in adding
a skill, the added skill satisfied
`max_attribute - current_attribute >= skill.value` at the moment of the
check inside `_try_add_skill`, and the updated current attribute value
`current + skill.value` therefore never exceeds `max_attribute`. -/
theorem c1_budget_invariant (ctx : AllocCtx) (s s' : AllocState)
    (h : allocBody ctx s = (s', true)) :
    s'.current ≤ ctx.max_attribute ∧
    ∃ sk : Skill, (sk.value : Rat) ≤ ctx.max_attribute - s.current ∧
      s'.current = s.current + (sk.value : Rat) := by
  obtain ⟨-, sk, hle, hcur, -⟩ := allocBody_succ h
  exact ⟨by rw [hcur]; linarith, sk, hle, hcur⟩

/-- The catalogs used by the concrete witness states: one skill of
value 1 in each category. -/
def catW : Catalog := ⟨[⟨0, 1⟩], [⟨1, 1⟩], [⟨2, 1⟩]⟩

/-- The all-zero oracle. -/
def rng0 : Nat → Nat := fun _ => 0

/-- A concrete allocation context for the witnesses. -/
def ctxW : AllocCtx := ⟨catW, 1, 1, 1, 1, 100, rng0⟩

/-- A concrete start state for the witnesses. -/
def sW : AllocState := ⟨0, [], [], [], [], [], [], [], [], [], 0, 0⟩

theorem c1_budget_invariant_witness :
    allocBody ctxW sW = ((allocBody ctxW sW).1, true) ∧
    (allocBody ctxW sW).1.current ≤ ctxW.max_attribute :=
  have hflag : allocBody ctxW sW = ((allocBody ctxW sW).1, true) :=
    Prod.ext rfl (by decide)
  ⟨hflag, (c1_budget_invariant ctxW sW _ hflag).1⟩

/-- C8: started (as in the source) with zero consecutive failures, the
allocation loop always terminates, stopping exactly when the failure
counter reaches `reroll_limit` or when all three catalogs are fully
active, and the failure counter never exceeds `reroll_limit`, so at
most `reroll_limit` consecutive failed steps are performed. -/
theorem c8_loop_termination (ctx : AllocCtx) (s : AllocState) (h : s.failures = 0) :
    ((runAllocLoop ctx s).failures = ctx.reroll_limit ∨
      allFull ctx.cats (runAllocLoop ctx s) = true) ∧
    (runAllocLoop ctx s).failures ≤ ctx.reroll_limit := by
  have he := runAllocLoop_exit ctx s
  have hb := runAllocLoop_failures_le ctx s (by omega)
  unfold exitCond at he
  rcases he with h1 | h1
  · exact ⟨Or.inl (by omega), hb⟩
  · exact ⟨Or.inr h1, hb⟩

theorem c8_loop_termination_witness :
    sW.failures = 0 ∧
    (((runAllocLoop ctxW sW).failures = ctxW.reroll_limit ∨
       allFull ctxW.cats (runAllocLoop ctxW sW) = true) ∧
     (runAllocLoop ctxW sW).failures ≤ ctxW.reroll_limit) :=
  ⟨rfl, c8_loop_termination ctxW sW rfl⟩

/-- C9: the encode step only sets bit `id % 8` of byte `id / 8`
(growing the byte buffer with zeros when needed) and never clears a
bit; consequently, for every category, running the allocation loop from
the decoded state and decoding the resulting skill bytes yields exactly
the originally active set united with the skills added during the run,
with no duplicates. -/
theorem c9_round_trip (ctx : AllocCtx) (bM0 bC0 bP0 : List Nat) (cur0 : Rat) (rix0 : Nat)
    (hndM : (ctx.cats.marshal_skills.map Skill.id).Nodup)
    (hndC : (ctx.cats.commander_skills.map Skill.id).Nodup)
    (hndP : (ctx.cats.personal_skills.map Skill.id).Nodup) :
    (∀ (bs : List Nat) (id i : Nat),
      bitActive (setBit bs id) i = (bitActive bs i || decide (i = id))) ∧
    (runAllocLoop ctx (allocStart ctx.cats bM0 bC0 bP0 cur0 rix0)).activeM =
      decodeActive ctx.cats.marshal_skills bM0 ++
        (runAllocLoop ctx (allocStart ctx.cats bM0 bC0 bP0 cur0 rix0)).addedM ∧
    (runAllocLoop ctx (allocStart ctx.cats bM0 bC0 bP0 cur0 rix0)).activeC =
      decodeActive ctx.cats.commander_skills bC0 ++
        (runAllocLoop ctx (allocStart ctx.cats bM0 bC0 bP0 cur0 rix0)).addedC ∧
    (runAllocLoop ctx (allocStart ctx.cats bM0 bC0 bP0 cur0 rix0)).activeP =
      decodeActive ctx.cats.personal_skills bP0 ++
        (runAllocLoop ctx (allocStart ctx.cats bM0 bC0 bP0 cur0 rix0)).addedP ∧
    (∀ x, x ∈ decodeActive ctx.cats.marshal_skills
        (runAllocLoop ctx (allocStart ctx.cats bM0 bC0 bP0 cur0 rix0)).bytesM ↔
      (x ∈ decodeActive ctx.cats.marshal_skills bM0 ∨
        x ∈ (runAllocLoop ctx (allocStart ctx.cats bM0 bC0 bP0 cur0 rix0)).addedM)) ∧
    (∀ x, x ∈ decodeActive ctx.cats.commander_skills
        (runAllocLoop ctx (allocStart ctx.cats bM0 bC0 bP0 cur0 rix0)).bytesC ↔
      (x ∈ decodeActive ctx.cats.commander_skills bC0 ∨
        x ∈ (runAllocLoop ctx (allocStart ctx.cats bM0 bC0 bP0 cur0 rix0)).addedC)) ∧
    (∀ x, x ∈ decodeActive ctx.cats.personal_skills
        (runAllocLoop ctx (allocStart ctx.cats bM0 bC0 bP0 cur0 rix0)).bytesP ↔
      (x ∈ decodeActive ctx.cats.personal_skills bP0 ∨
        x ∈ (runAllocLoop ctx (allocStart ctx.cats bM0 bC0 bP0 cur0 rix0)).addedP)) ∧
    (runAllocLoop ctx (allocStart ctx.cats bM0 bC0 bP0 cur0 rix0)).activeM.Nodup ∧
    (runAllocLoop ctx (allocStart ctx.cats bM0 bC0 bP0 cur0 rix0)).activeC.Nodup ∧
    (runAllocLoop ctx (allocStart ctx.cats bM0 bC0 bP0 cur0 rix0)).activeP.Nodup := by
  have hinv0 : AllInv ctx (decodeActive ctx.cats.marshal_skills bM0)
      (decodeActive ctx.cats.commander_skills bC0)
      (decodeActive ctx.cats.personal_skills bP0)
      (allocStart ctx.cats bM0 bC0 bP0 cur0 rix0) := by
    refine ⟨decodeActive_catInv _ _ hndM, decodeActive_catInv _ _ hndC,
      decodeActive_catInv _ _ hndP, ?_, ?_, ?_⟩ <;> simp [allocStart]
  have hinv := runAllocLoop_allInv hndM hndC hndP hinv0
  obtain ⟨hM, hC, hP, heM, heC, heP⟩ := hinv
  refine ⟨bitActive_setBit, heM, heC, heP, ?_, ?_, ?_, hM.2.1, hC.2.1, hP.2.1⟩
  · intro x
    rw [CatInv_decode_iff hM x, heM, List.mem_append]
  · intro x
    rw [CatInv_decode_iff hC x, heC, List.mem_append]
  · intro x
    rw [CatInv_decode_iff hP x, heP, List.mem_append]

theorem c9_round_trip_witness :
    (ctxW.cats.marshal_skills.map Skill.id).Nodup ∧
    (ctxW.cats.commander_skills.map Skill.id).Nodup ∧
    (ctxW.cats.personal_skills.map Skill.id).Nodup ∧
    ((⟨2, 1⟩ : Skill) ∈ decodeActive ctxW.cats.personal_skills
        (runAllocLoop ctxW (allocStart ctxW.cats [] [] [] 0 0)).bytesP ↔
      ((⟨2, 1⟩ : Skill) ∈ decodeActive ctxW.cats.personal_skills [] ∨
        (⟨2, 1⟩ : Skill) ∈ (runAllocLoop ctxW (allocStart ctxW.cats [] [] [] 0 0)).addedP)) :=
  ⟨by decide, by decide, by decide,
    (c9_round_trip ctxW [] [] [] 0 0 (by decide) (by decide)
      (by decide)).2.2.2.2.2.2.1 ⟨2, 1⟩⟩

/-- The buffer region a completed character may have written: the three
skill-bitfield ranges starting at strength offset + 0x2AC, + 0x29C and
+ 0x28C, each as long as the final skill-byte buffer of its category. -/
def regionOf (info : CharInfo) (j : Nat) : Prop :=
  (marshal_offset_of info.strengthOff ≤ j ∧
    j < marshal_offset_of info.strengthOff + info.lenM) ∨
  (commander_offset_of info.strengthOff ≤ j ∧
    j < commander_offset_of info.strengthOff + info.lenC) ∨
  (personal_offset_of info.strengthOff ≤ j ∧
    j < personal_offset_of info.strengthOff + info.lenP)

theorem setByte_frame {b b' : Buf} {i v : Nat} (h : b.setByte i v = some b') :
    b'.len = b.len ∧ ∀ j, j ≠ i → b'.data j = b.data j := by
  unfold Buf.setByte at h
  split at h
  · rw [Option.some.injEq] at h
    rw [← h]
    exact ⟨rfl, fun j hj => by simp [hj]⟩
  · exact absurd h (by simp)

theorem writeBytes_frame : ∀ (l : List Nat) {b b' : Buf} {off : Nat},
    writeBytes b off l = some b' →
    b'.len = b.len ∧ ∀ j, (j < off ∨ off + l.length ≤ j) → b'.data j = b.data j := by
  intro l
  induction l with
  | nil =>
    intro b b' off h
    rw [writeBytes, Option.some.injEq] at h
    rw [← h]
    exact ⟨rfl, fun j _ => rfl⟩
  | cons v rest ih =>
    intro b b' off h
    rw [writeBytes] at h
    split at h
    · exact absurd h (by simp)
    · rename_i b2 hsb
      obtain ⟨hlen2, hdata2⟩ := setByte_frame hsb
      obtain ⟨hlen', hdata'⟩ := ih h
      refine ⟨hlen'.trans hlen2, fun j hj => ?_⟩
      have h1 : b'.data j = b2.data j := by
        apply hdata'
        simp only [List.length_cons] at hj ⊢
        omega
      have h2 : b2.data j = b.data j := by
        apply hdata2
        simp only [List.length_cons] at hj
        omega
      exact h1.trans h2

theorem afterAlloc_done {b : Buf} {p so : Nat} {s1 : AllocState} {b2 : Buf}
    {sp2 rix2 : Nat} {info : CharInfo}
    (h : afterAlloc b p so s1 = .done b2 sp2 rix2 info) :
    b2.len = b.len ∧ info.zeroStats = false ∧ info.strengthOff = so ∧ info.pos = p ∧
    sp2 = p + 900 ∧
    info.lenM = s1.bytesM.length ∧ info.lenC = s1.bytesC.length ∧
    info.lenP = s1.bytesP.length ∧
    ∀ j, b2.data j ≠ b.data j → regionOf info j := by
  unfold afterAlloc at h
  split at h
  · exact CharStep.noConfusion h
  · rename_i b1 hw1
    split at h
    · exact CharStep.noConfusion h
    · rename_i bb2 hw2
      split at h
      · exact CharStep.noConfusion h
      · rename_i b3 hw3
        injection h with hb hsp hrix hinfo
        obtain ⟨hl1, hf1⟩ := writeBytes_frame _ hw1
        obtain ⟨hl2, hf2⟩ := writeBytes_frame _ hw2
        obtain ⟨hl3, hf3⟩ := writeBytes_frame _ hw3
        subst hb hinfo
        refine ⟨by rw [hl3, hl2, hl1], rfl, rfl, rfl, hsp.symm, rfl, rfl, rfl, ?_⟩
        intro j hj
        by_cases hM : marshal_offset_of so ≤ j ∧ j < marshal_offset_of so + s1.bytesM.length
        · exact Or.inl hM
        by_cases hC : commander_offset_of so ≤ j ∧ j < commander_offset_of so + s1.bytesC.length
        · exact Or.inr (Or.inl hC)
        by_cases hP : personal_offset_of so ≤ j ∧ j < personal_offset_of so + s1.bytesP.length
        · exact Or.inr (Or.inr hP)
        exfalso
        apply hj
        rw [hf3 j (by omega), hf2 j (by omega), hf1 j (by omega)]

theorem afterStats_done {cfg : Config} {cats : Catalog} {rng : Nat → Nat} {b : Buf}
    {p rix so : Nat} {strength intelligence : Int} {b2 : Buf} {sp2 rix2 : Nat}
    {info : CharInfo}
    (h : afterStats cfg cats rng b p rix so strength intelligence = .done b2 sp2 rix2 info) :
    b2.len = b.len ∧ info.zeroStats = false ∧
    ∀ j, b2.data j ≠ b.data j → regionOf info j := by
  simp only [afterStats] at h
  split at h
  · exact CharStep.noConfusion h
  · split at h
    · exact CharStep.noConfusion h
    · split at h
      · exact CharStep.noConfusion h
      · obtain ⟨h1, h2, -, -, -, -, -, -, h9⟩ := afterAlloc_done h
        exact ⟨h1, h2, h9⟩

theorem afterSkip_done {cfg : Config} {cats : Catalog} {rng : Nat → Nat} {b : Buf}
    {p rix so : Nat} {b2 : Buf} {sp2 rix2 : Nat} {info : CharInfo}
    (h : afterSkip cfg cats rng b p rix so = .done b2 sp2 rix2 info) :
    b2.len = b.len ∧
    ∀ j, b2.data j ≠ b.data j → (info.zeroStats = false ∧ regionOf info j) := by
  unfold afterSkip at h
  split at h
  · rename_i strength0 intelligence0 hs hi
    split at h
    · injection h with hb hsp hrix hinfo
      subst hb
      exact ⟨rfl, fun j hj => absurd rfl hj⟩
    · split at h
      · obtain ⟨h1, h2, h3⟩ := afterStats_done h
        exact ⟨h1, fun j hj => ⟨h2, h3 j hj⟩⟩
      · obtain ⟨h1, h2, h3⟩ := afterStats_done h
        exact ⟨h1, fun j hj => ⟨h2, h3 j hj⟩⟩
  · exact CharStep.noConfusion h

theorem processChar_done {cfg : Config} {cats : Catalog} {rng : Nat → Nat}
    {charId : Nat} {b : Buf} {sp rix : Nat} {b2 : Buf} {sp2 rix2 : Nat} {info : CharInfo}
    (h : processChar cfg cats rng charId b sp rix = .done b2 sp2 rix2 info) :
    b2.len = b.len ∧
    ∀ j, b2.data j ≠ b.data j → (info.zeroStats = false ∧ regionOf info j) := by
  unfold processChar at h
  split at h
  · split at h <;> exact CharStep.noConfusion h
  · split at h
    · exact CharStep.noConfusion h
    · exact afterSkip_done h

theorem runAux_frame {cfg : Config} {cats : Catalog} {rng : Nat → Nat} :
    ∀ (ids : List Nat) (st : RunSt) (res : Nat × Nat × Nat × Buf),
    runAux cfg cats rng ids st = some res →
    res.2.2.2.len = st.buf.len ∧
    ∀ j, res.2.2.2.data j ≠ st.buf.data j →
      ∃ info ∈ runTrace cfg cats rng ids st, info.zeroStats = false ∧ regionOf info j := by
  intro ids
  induction ids with
  | nil =>
    intro st res h
    rw [runAux, Option.some.injEq] at h
    rw [← h]
    exact ⟨rfl, fun j hj => absurd rfl hj⟩
  | cons charId rest ih =>
    intro st res h
    rw [runAux] at h
    split at h
    · exact absurd h (by simp)
    · rename_i hpc
      obtain ⟨h1, h2⟩ := ih st res h
      refine ⟨h1, fun j hj => ?_⟩
      obtain ⟨info, hmem, hi⟩ := h2 j hj
      refine ⟨info, ?_, hi⟩
      rw [runTrace]
      rw [hpc]
      exact hmem
    · rename_i b2 sp2 rix2 info hpc
      obtain ⟨hlen2, hframe2⟩ := processChar_done hpc
      obtain ⟨h1, h2⟩ := ih _ res h
      refine ⟨by rw [h1]; exact hlen2, fun j hj => ?_⟩
      by_cases hc : b2.data j = st.buf.data j
      · have hj2 : res.2.2.2.data j ≠ b2.data j := by
          rw [hc]
          exact hj
        obtain ⟨info2, hmem, hi⟩ := h2 j hj2
        refine ⟨info2, ?_, hi⟩
        rw [runTrace, hpc]
        exact List.mem_cons_of_mem _ hmem
      · refine ⟨info, ?_, hframe2 j hc⟩
        rw [runTrace, hpc]
        exact List.mem_cons_self _ _

/-- C10: over a successful run, the buffer length never changes, and
every byte that differs between the input buffer and the written output
lies inside one of the three skill-bitfield regions (starting at
strength offset + 0x28C, + 0x29C, + 0x2AC) of some character that was
located and did not have both stats zero; all other bytes, including
everything belonging to skipped, unfound or zero-stat characters, are
unchanged. -/
theorem c10_frame (cfg : Config) (cats : Catalog) (rng : Nat → Nat) (b : Buf)
    (res : Nat × Nat × Nat × Buf)
    (h : process_save_file cfg cats rng b = some res) :
    res.2.2.2.len = b.len ∧
    ∀ j, res.2.2.2.data j ≠ b.data j →
      ∃ info ∈ runTrace cfg cats rng (List.range' 1 cfg.last_character_number)
          ⟨b, 0x20000, 0, 0, 0, 0⟩,
        info.zeroStats = false ∧ regionOf info j :=
  runAux_frame _ _ res h

/-- C7: for a character id other than 1, the scan covers the bounded
window of at most 1200 start positions `[cursor, cursor + 1200)`
clamped to `len - 25` (so the 22-byte template never reads past the
buffer end), and when the template is not found in that window the
character is skipped, the buffer and the cursor are left unchanged, and
the run continues with the remaining ids. -/
theorem c7_bounded_window (cfg : Config) (cats : Catalog) (rng : Nat → Nat)
    (charId : Nat) (rest : List Nat) (st : RunSt)
    (hne : charId ≠ 1)
    (hmiss : findPattern st.buf (idBytes charId) st.sp
        (min (st.sp + 1200) (st.buf.len - 25)) = none) :
    scanStop st.buf charId st.sp = min (st.sp + 1200) (st.buf.len - 25) ∧
    scanStop st.buf charId st.sp - st.sp ≤ 1200 ∧
    (∀ i, checkPatternAt st.buf (idBytes charId) i = true → i + 22 ≤ st.buf.len) ∧
    processChar cfg cats rng charId st.buf st.sp st.rix = .notFound ∧
    runAux cfg cats rng (charId :: rest) st = runAux cfg cats rng rest st := by
  have hstop : scanStop st.buf charId st.sp = min (st.sp + 1200) (st.buf.len - 25) := by
    unfold scanStop
    rw [if_neg hne]
  have hscan : scanResult st.buf charId st.sp = none := by
    unfold scanResult
    rw [hstop, hmiss, if_neg hne]
  have hpc : processChar cfg cats rng charId st.buf st.sp st.rix = .notFound := by
    simp only [processChar, hscan]
    rw [if_neg hne]
  refine ⟨hstop, by omega, ?_, hpc, by simp only [runAux, hpc]⟩
  intro i h
  unfold checkPatternAt at h
  simp only [Bool.and_eq_true, decide_eq_true_eq] at h
  exact h.1.1.1.1

/-- An all-zero buffer for the C7 witness: no signature anywhere. -/
def bufW7 : Buf := ⟨60, fun _ => 0⟩

/-- The run state for the C7 witness. -/
def stW7 : RunSt := ⟨bufW7, 0, 0, 0, 0, 0⟩

/-- The configuration used by the concrete run witnesses; the values
are those of the shipped defaults except that the random extra range is
collapsed to 0, both random rates are 1 and only one character is
processed. -/
def cfgC : Config :=
  ⟨1, 1, 30, 3 / 2, 1, 0, 0, 1, 1, [100, 130, 160, 190],
   [7 / 5, 5 / 4, 11 / 10, 1, 9 / 10], 7 / 10, 1⟩

/-- A catalog with one expensive skill (id 7, value 1000) per
category. -/
def catsC : Catalog := ⟨[⟨7, 1000⟩], [⟨7, 1000⟩], [⟨7, 1000⟩]⟩

theorem c7_bounded_window_witness :
    (2 : Nat) ≠ 1 ∧
    findPattern stW7.buf (idBytes 2) stW7.sp
      (min (stW7.sp + 1200) (stW7.buf.len - 25)) = none ∧
    scanStop stW7.buf 2 stW7.sp = min (stW7.sp + 1200) (stW7.buf.len - 25) ∧
    scanStop stW7.buf 2 stW7.sp - stW7.sp ≤ 1200 ∧
    (checkPatternAt stW7.buf (idBytes 2) 0 = true → 0 + 22 ≤ stW7.buf.len) ∧
    processChar cfgC catsC rng0 2 stW7.buf stW7.sp stW7.rix = .notFound ∧
    runAux cfgC catsC rng0 [2] stW7 = runAux cfgC catsC rng0 [] stW7 :=
  have h := c7_bounded_window cfgC catsC rng0 2 [] stW7 (by decide) (by decide)
  ⟨by decide, by decide, h.1, h.2.1, h.2.2.1 0, h.2.2.2.1, h.2.2.2.2⟩

/-- C4 amended, the part that holds: when the strength or intelligence
read (or the skip-count read) of a located character falls outside the
buffer, the read raises, processing of the whole run aborts at that
character (it does not skip to the next id), and no output is produced
(`none`: the output file is never written). -/
theorem c4_fatal_aborts (cfg : Config) (cats : Catalog) (rng : Nat → Nat)
    (charId : Nat) (rest : List Nat) (st : RunSt) (p : Nat)
    (hscan : scanResult st.buf charId st.sp = some p)
    (hfail : readLE4 st.buf (p + 22) = none ∨
      ∃ skip, readLE4 st.buf (p + 22) = some skip ∧
        (readLE4 st.buf (strength_offset_of p skip) = none ∨
         readLE4 st.buf (strength_offset_of p skip + 4) = none)) :
    processChar cfg cats rng charId st.buf st.sp st.rix = .fatal ∧
    runAux cfg cats rng (charId :: rest) st = none := by
  have hpc : processChar cfg cats rng charId st.buf st.sp st.rix = .fatal := by
    rcases hfail with hnone | ⟨skip, hskip, hfail2⟩
    · simp only [processChar, hscan, hnone]
    · simp only [processChar, hscan, hskip]
      rcases hfail2 with h2 | h2
      · simp only [afterSkip, h2]
      · rcases hr : readLE4 st.buf (strength_offset_of p skip) with _ | v
        · simp only [afterSkip, hr]
        · simp only [afterSkip, hr, h2]
  exact ⟨hpc, by simp only [runAux, hpc]⟩

/-- The buffer for the C4 witness: a valid signature for character 2 at
offset 0 whose skip count 100 pushes the strength offset far past the
26-byte buffer end. -/
def bufW4 : Buf :=
  ⟨26, fun i =>
    if i = 0 then 2
    else if i = 4 then 77 else if i = 5 then 97
    else if i = 6 then 114 else if i = 7 then 107
    else if i = 9 then 2
    else if i = 13 then 77 else if i = 14 then 97
    else if i = 15 then 114 else if i = 16 then 107
    else if i = 22 then 100 else 0⟩

/-- The run state for the C4 witness. -/
def stW4 : RunSt := ⟨bufW4, 0, 0, 0, 0, 0⟩

theorem c4_fatal_aborts_witness :
    scanResult stW4.buf 2 stW4.sp = some 0 ∧
    readLE4 stW4.buf (0 + 22) = some 100 ∧
    readLE4 stW4.buf (strength_offset_of 0 100) = none ∧
    (processChar cfgC catsC rng0 2 stW4.buf stW4.sp stW4.rix = .fatal ∧
     runAux cfgC catsC rng0 [2] stW4 = none) :=
  ⟨rfl, rfl, rfl,
    c4_fatal_aborts cfgC catsC rng0 2 [] stW4 0 rfl (Or.inr ⟨100, rfl, Or.inl rfl⟩)⟩

/-- The byte content of the C4 counterexample buffer: a valid strict
signature for character 1 at the scan start `0x20000`, skip count 0,
strength 300 and intelligence 300; the buffer ends exactly at the
personal skill-bitfield offset, so all three bitfield regions lie
outside the buffer. -/
def bufCData : Nat → Nat := fun i =>
  if i = 131072 then 1
  else if i = 131076 then 77 else if i = 131077 then 97
  else if i = 131078 then 114 else if i = 131079 then 107
  else if i = 131081 then 1
  else if i = 131085 then 77 else if i = 131086 then 97
  else if i = 131087 then 114 else if i = 131088 then 107
  else if i = 131098 then 44 else if i = 131099 then 1
  else if i = 131102 then 44 else if i = 131103 then 1
  else 0

/-- The C4 counterexample buffer. -/
def bufC : Buf := ⟨131750, bufCData⟩

/-- C4 counterexample: for this character every skill-bitfield region
(personal at strength offset + 0x28C 131750, commander and marshal
beyond it) falls entirely outside the 131750-byte buffer, yet the run
does not abort: it completes successfully and produces an output
buffer, returning the statistics `(1, 0, 0)`. -/
theorem c4_counterexample :
    process_save_file cfgC catsC rng0 bufC = some (1, 0, 0, bufC) ∧
    scanResult bufC 1 0x20000 = some 0x20000 ∧
    readLE4 bufC (0x20000 + 22) = some 0 ∧
    strength_offset_of 0x20000 0 = 131098 ∧
    bufC.len ≤ personal_offset_of 131098 ∧
    bufC.len ≤ commander_offset_of 131098 ∧
    bufC.len ≤ marshal_offset_of 131098 :=
  ⟨rfl, rfl, rfl, rfl, by decide, by decide, by decide⟩

/-- A catalog whose personal skill (id 7, value 10) is affordable while
the other two categories stay too expensive to add. -/
def catsD : Catalog := ⟨[⟨7, 1000⟩], [⟨7, 1000⟩], [⟨7, 10⟩]⟩

/-- Byte content for the C10 witness buffer: signature for character 1
at `0x20000`, skip count 0, strength 100, intelligence 0; the buffer
covers exactly one byte of the personal bitfield region. -/
def bufDData : Nat → Nat := fun i =>
  if i = 131072 then 1
  else if i = 131076 then 77 else if i = 131077 then 97
  else if i = 131078 then 114 else if i = 131079 then 107
  else if i = 131081 then 1
  else if i = 131085 then 77 else if i = 131086 then 97
  else if i = 131087 then 114 else if i = 131088 then 107
  else if i = 131098 then 100
  else 0

/-- The C10 witness buffer. -/
def bufD : Buf := ⟨131751, bufDData⟩

/-- The output buffer of the C10 witness run: the single personal
bitfield byte at 131750 now carries bit 7. -/
def bufDOut : Buf := ⟨131751, fun j => if j = 131750 then 128 else bufDData j⟩

theorem c10_frame_witness :
    process_save_file cfgC catsD rng0 bufD = some (1, 1, 1, bufDOut) ∧
    bufDOut.len = bufD.len ∧
    (bufDOut.data 131750 ≠ bufD.data 131750 →
      ∃ info ∈ runTrace cfgC catsD rng0 (List.range' 1 cfgC.last_character_number)
          ⟨bufD, 0x20000, 0, 0, 0, 0⟩,
        info.zeroStats = false ∧ regionOf info 131750) ∧
    bufDOut.data 131750 ≠ bufD.data 131750 :=
  have h := c10_frame cfgC catsD rng0 bufD (1, 1, 1, bufDOut) rfl
  ⟨rfl, h.1, h.2 131750, by decide⟩
